import Mathlib

/-!
Verification of the Data Reorganization & Integrity Engine of
`TERNUAV_DataBackupAutomation_V3_251111.py` against its specification.

Python strings are modelled as `List Char` (`FName`), machine paths and
byte contents as lists, and the stateful loops of the source as explicit
recursion.  Each definition carries the source lines it embeds.
-/

namespace TernUav

/-- Model of a Python string (a filename, a path, a plot id): its list of
characters. -/
abbrev FName := List Char

/-- Python `s.rsplit(sep, 1)`: `none` when `sep` does not occur in `s`,
otherwise `some (before, after)` where `before`/`after` are everything
before/after the LAST occurrence of `sep`. -/
def rsplit1 (sep : Char) (s : List Char) : Option (List Char × List Char) :=
  match s.reverse.span (fun c => c != sep) with
  | (_, []) => none
  | (sufRev, _ :: preRev) => some (preRev.reverse, sufRev.reverse)

/-- Line 1363: `name_without_ext = filename.rsplit('.', 1)[0]`. -/
def nameWithoutExt (f : FName) : FName :=
  match rsplit1 '.' f with
  | none => f
  | some (a, _) => a

/-- Numeric value of a digit string (Python `int(s)` for `s.isdigit()`). -/
def digitsToNat (s : List Char) : Nat :=
  s.foldl (fun a c => 10 * a + (c.toNat - 48)) 0

/-- Lines 1366-1372: split `name_without_ext` at the last underscore when one
is present; the numeric suffix is parsed only when nonempty and all digits
(Python `parts[1].isdigit()`).  `rsplit1 '_'` returns `some` exactly when
`'_' in name_without_ext`, so the match mirrors the `if '_' in ...` test. -/
def splitBase (f : FName) : FName × Option Nat :=
  match rsplit1 '_' (nameWithoutExt f) with
  | some (b, suf) =>
      (b, if suf.isEmpty then none
          else if suf.all (fun c => c.isDigit) then some (digitsToNat suf) else none)
  | none => (nameWithoutExt f, none)

/-- `base_name` of line 1368 / 1371. -/
def baseName (f : FName) : FName := (splitBase f).1

/-- `series_num` of lines 1369 / 1372. -/
def seriesNum (f : FName) : Option Nat := (splitBase f).2

/-- Line 1384 look-ahead test:
`'_' in check_name and check_name.rsplit('_', 1)[0] == base_name`. -/
def sameSeries (base : FName) (g : FName) : Bool :=
  match rsplit1 '_' (nameWithoutExt g) with
  | some (b, _) => b == base
  | none => false

/-- Lines 1377-1389: the series length starting at the head of `fs`: when the
head has a numeric suffix, scan forward up to 11 files while the base name
matches; otherwise the series is the single head file. -/
def seriesLen (fs : List FName) : Nat :=
  match fs with
  | [] => 0
  | f :: _ =>
    match seriesNum f with
    | some _ => ((fs.take 11).takeWhile (fun g => sameSeries (baseName f) g)).length
    | none => 1

theorem sameSeries_self {f : FName} (h : (seriesNum f).isSome) :
    sameSeries (baseName f) f = true := by
  unfold seriesNum splitBase at h
  unfold sameSeries baseName splitBase
  cases hr : rsplit1 '_' (nameWithoutExt f) with
  | none => rw [hr] at h; simp at h
  | some p => cases p with
    | mk b suf => simp [hr]

theorem length_takeWhile_le_len (p : α → Bool) (l : List α) :
    (l.takeWhile p).length ≤ l.length := by
  induction l with
  | nil => simp
  | cons a l ih =>
    rw [List.takeWhile_cons]
    cases p a with
    | false => simp
    | true => simp; omega

theorem seriesLen_pos (f : FName) (rest : List FName) :
    1 ≤ seriesLen (f :: rest) := by
  unfold seriesLen
  cases hn : seriesNum f with
  | none => simp only [hn]; omega
  | some n =>
    have hs : sameSeries (baseName f) f = true := sameSeries_self (by rw [hn]; rfl)
    simp only [hn, List.take_succ_cons, List.takeWhile_cons, hs, if_true,
      List.length_cons]
    omega

theorem seriesLen_pos_of_ne (fs : List FName) (h : fs ≠ []) : 1 ≤ seriesLen fs := by
  cases fs with
  | nil => simp at h
  | cons f rest => exact seriesLen_pos f rest

theorem seriesLen_le (fs : List FName) : seriesLen fs ≤ fs.length := by
  unfold seriesLen
  cases fs with
  | nil => simp
  | cons f rest =>
    cases hn : seriesNum f with
    | none => simp only [hn, List.length_cons]; omega
    | some n =>
      simp only [hn]
      have h1 := length_takeWhile_le_len (fun g => sameSeries (baseName f) g)
        ((f :: rest).take 11)
      have h2 : ((f :: rest).take 11).length ≤ (f :: rest).length := by
        simp [List.length_take]
      exact Nat.le_trans h1 h2

/-- An output bin: its sequential index (rendered zero-padded in the
destination path) and the files placed into it.  `fileCount` of the
summary rows equals `files.length` since lines 1409-1423 increment
`current_folder_count` once per file of the series. -/
structure Bin where
  index : Nat
  files : List FName
deriving Repr, DecidableEq

/-- Lines 1355-1438: the reorganization loop.  State: remaining files `fs`,
`current_folder_num = binIdx`, the files of the open bin `cur`
(`current_folder_count = cur.length`), emitted bins `acc`.  Each step takes
the series at the cursor whole; a non-empty bin that cannot fit the series is
emitted first (lines 1391-1400); the final non-empty bin is emitted after the
loop (lines 1432-1438).  The `fuel` argument is a structural bound on the
number of loop iterations; every call keeps `fs.length ≤ fuel`, and since
each iteration consumes at least one file the `(0, _ :: _)` branch is never
reached (it flushes the open bin exactly as the empty case does). -/
def packGo (cap : Nat) : Nat → List FName → Nat → List FName → List Bin → List Bin
  | _, [], binIdx, cur, acc =>
      if 0 < cur.length then acc ++ [⟨binIdx, cur⟩] else acc
  | 0, _ :: _, binIdx, cur, acc =>
      if 0 < cur.length then acc ++ [⟨binIdx, cur⟩] else acc
  | fuel + 1, f :: rest, binIdx, cur, acc =>
      let L := seriesLen (f :: rest)
      if 0 < cur.length ∧ cap < cur.length + L then
        packGo cap fuel ((f :: rest).drop L) (binIdx + 1) ((f :: rest).take L)
          (acc ++ [⟨binIdx, cur⟩])
      else
        packGo cap fuel ((f :: rest).drop L) binIdx (cur ++ (f :: rest).take L) acc

/-- The SeriesPacker: `pack(files, cap)` over an already-sorted file list
(lines 1347-1356 initialize folder number 0, count 0, empty summary). -/
def pack (fs : List FName) (cap : Nat) : List Bin := packGo cap fs.length fs 0 [] []

/-- Decomposition of a file list into consecutive series, each chunk being
what the look-ahead of lines 1377-1389 detects at its cursor position.  Fuel
as in `packGo`. -/
def chunksGo : Nat → List FName → List (List FName)
  | _, [] => []
  | 0, _ :: _ => []
  | fuel + 1, f :: rest =>
      ((f :: rest).take (seriesLen (f :: rest))) ::
        chunksGo fuel ((f :: rest).drop (seriesLen (f :: rest)))

/-- The series decomposition of a file list. -/
def seriesChunks (fs : List FName) : List (List FName) := chunksGo fs.length fs

/-- Chunk-level image of the packing loop: the same control flow as `packGo`,
but the open bin is kept as the list of whole series placed into it, so its
files are `cur.flatten` and `current_folder_count = cur.flatten.length`. -/
def packChunks (cap : Nat) :
    List (List FName) → Nat → List (List FName) → List Bin → List Bin
  | [], binIdx, cur, acc =>
      if 0 < cur.flatten.length then acc ++ [⟨binIdx, cur.flatten⟩] else acc
  | c :: rest, binIdx, cur, acc =>
      if 0 < cur.flatten.length ∧ cap < cur.flatten.length + c.length then
        packChunks cap rest (binIdx + 1) [c] (acc ++ [⟨binIdx, cur.flatten⟩])
      else
        packChunks cap rest binIdx (cur ++ [c]) acc

theorem take_seriesLen_length (f : FName) (rest : List FName) :
    ((f :: rest).take (seriesLen (f :: rest))).length = seriesLen (f :: rest) := by
  simp [List.length_take]
  exact seriesLen_le (f :: rest)

/-- Bridge: the file-level loop computes exactly the chunk-level loop run on
the series decomposition, for any open bin given as a list of whole series. -/
theorem packGo_eq_packChunks (cap : Nat) (fuel : Nat) :
    ∀ fs : List FName, fs.length ≤ fuel →
    ∀ (binIdx : Nat) (gcur : List (List FName)) (acc : List Bin),
      packGo cap fuel fs binIdx gcur.flatten acc =
        packChunks cap (chunksGo fuel fs) binIdx gcur acc := by
  induction fuel with
  | zero =>
    intro fs hfs binIdx gcur acc
    have : fs = [] := List.length_eq_zero.mp (Nat.le_zero.mp hfs)
    subst this
    rfl
  | succ fuel ih =>
    intro fs hfs binIdx gcur acc
    cases fs with
    | nil => rfl
    | cons f rest =>
      have hL := seriesLen_pos f rest
      have hlen : ((f :: rest).drop (seriesLen (f :: rest))).length ≤ fuel := by
        simp only [List.length_drop]
        simp only [List.length_cons] at hfs ⊢
        omega
      show packGo cap (fuel + 1) (f :: rest) binIdx gcur.flatten acc = _
      rw [packGo, chunksGo, packChunks]
      rw [take_seriesLen_length]
      by_cases hc : 0 < gcur.flatten.length ∧
          cap < gcur.flatten.length + seriesLen (f :: rest)
      · rw [if_pos hc, if_pos hc]
        have h2 := ih _ hlen (binIdx + 1) [(f :: rest).take (seriesLen (f :: rest))]
          (acc ++ [⟨binIdx, gcur.flatten⟩])
        simpa using h2
      · rw [if_neg hc, if_neg hc]
        have h2 := ih _ hlen binIdx
          (gcur ++ [(f :: rest).take (seriesLen (f :: rest))]) acc
        simpa using h2

/-- The packer as the chunk-level loop on the series decomposition. -/
theorem pack_eq_packChunks (fs : List FName) (cap : Nat) :
    pack fs cap = packChunks cap (seriesChunks fs) 0 [] [] := by
  have h := packGo_eq_packChunks cap fs.length fs (Nat.le_refl _) 0 [] []
  simpa [pack, seriesChunks] using h

/-- The series decomposition concatenates back to the input list. -/
theorem seriesChunks_join (fs : List FName) : (seriesChunks fs).flatten = fs := by
  suffices h : ∀ fuel (fs : List FName), fs.length ≤ fuel →
      (chunksGo fuel fs).flatten = fs by
    exact h fs.length fs (Nat.le_refl _)
  intro fuel
  induction fuel with
  | zero =>
    intro fs hfs
    have : fs = [] := List.length_eq_zero.mp (Nat.le_zero.mp hfs)
    subst this
    rfl
  | succ fuel ih =>
    intro fs hfs
    cases fs with
    | nil => rfl
    | cons f rest =>
      have hL := seriesLen_pos f rest
      have hlen : ((f :: rest).drop (seriesLen (f :: rest))).length ≤ fuel := by
        simp only [List.length_drop]
        simp only [List.length_cons] at hfs ⊢
        omega
      rw [chunksGo]
      simp only [List.flatten_cons]
      rw [ih _ hlen, List.take_append_drop]

/-- Every chunk of the series decomposition is nonempty. -/
theorem seriesChunks_ne_nil (fs : List FName) :
    ∀ c ∈ seriesChunks fs, c ≠ [] := by
  suffices h : ∀ fuel (fs : List FName), fs.length ≤ fuel →
      ∀ c ∈ chunksGo fuel fs, c ≠ [] by
    exact h fs.length fs (Nat.le_refl _)
  intro fuel
  induction fuel with
  | zero =>
    intro fs hfs
    have : fs = [] := List.length_eq_zero.mp (Nat.le_zero.mp hfs)
    subst this
    intro c hc
    simp [chunksGo] at hc
  | succ fuel ih =>
    intro fs hfs
    cases fs with
    | nil => intro c hc; simp [chunksGo] at hc
    | cons f rest =>
      have hL := seriesLen_pos f rest
      have hlen : ((f :: rest).drop (seriesLen (f :: rest))).length ≤ fuel := by
        simp only [List.length_drop]
        simp only [List.length_cons] at hfs ⊢
        omega
      intro c hc
      rw [chunksGo] at hc
      rcases List.mem_cons.mp hc with h1 | h1
      · subst h1
        intro hnil
        have := take_seriesLen_length f rest
        rw [hnil] at this
        simp at this
        omega
      · exact ih _ hlen c h1

/-- The file lists of a run of bins. -/
def binsFiles (bs : List Bin) : List (List FName) := bs.map Bin.files

theorem packChunks_files_flatten (cap : Nat) :
    ∀ (cs : List (List FName)) (binIdx : Nat) (cur : List (List FName))
      (acc : List Bin),
      (binsFiles (packChunks cap cs binIdx cur acc)).flatten =
        (binsFiles acc).flatten ++ cur.flatten ++ cs.flatten := by
  intro cs
  induction cs with
  | nil =>
    intro binIdx cur acc
    rw [packChunks]
    by_cases h : 0 < cur.flatten.length
    · rw [if_pos h]
      simp [binsFiles]
    · rw [if_neg h]
      have h0 : cur.flatten = [] :=
        List.length_eq_zero.mp (Nat.le_zero.mp (Nat.not_lt.mp h))
      simp [binsFiles, h0]
  | cons c rest ih =>
    intro binIdx cur acc
    rw [packChunks]
    by_cases h : 0 < cur.flatten.length ∧ cap < cur.flatten.length + c.length
    · rw [if_pos h, ih]
      simp [binsFiles, List.append_assoc]
    · rw [if_neg h, ih]
      simp [binsFiles, List.append_assoc]

theorem packChunks_groups (cap : Nat) :
    ∀ (cs : List (List FName)), (∀ c ∈ cs, c ≠ []) →
    ∀ (binIdx : Nat) (cur : List (List FName)) (acc : List Bin),
      (∀ c ∈ cur, c ≠ []) →
      ∃ gs : List (List (List FName)),
        binsFiles (packChunks cap cs binIdx cur acc) =
          binsFiles acc ++ gs.map List.flatten ∧
        gs.flatten = cur ++ cs := by
  intro cs
  induction cs with
  | nil =>
    intro _ binIdx cur acc hcur
    rw [packChunks]
    by_cases h : 0 < cur.flatten.length
    · exact ⟨[cur], by rw [if_pos h]; simp [binsFiles], by simp⟩
    · have h0 : cur.flatten = [] :=
        List.length_eq_zero.mp (Nat.le_zero.mp (Nat.not_lt.mp h))
      have hc : cur = [] := by
        cases cur with
        | nil => rfl
        | cons x xs =>
          exfalso
          have hx : x = [] := by
            have h1 : x ++ xs.flatten = [] := by simpa using h0
            exact (List.append_eq_nil.mp h1).1
          exact hcur x (List.mem_cons_self x xs) hx
      exact ⟨[], by rw [if_neg h]; simp [binsFiles], by simp [hc]⟩
  | cons c rest ih =>
    intro hcs binIdx cur acc hcur
    rw [packChunks]
    have hcne : c ≠ [] := hcs c (List.mem_cons_self c rest)
    have hrest : ∀ x ∈ rest, x ≠ [] := fun x hx => hcs x (List.mem_cons_of_mem c hx)
    by_cases h : 0 < cur.flatten.length ∧ cap < cur.flatten.length + c.length
    · rw [if_pos h]
      obtain ⟨gs, h1, h2⟩ := ih hrest (binIdx + 1) [c]
        (acc ++ [⟨binIdx, cur.flatten⟩])
        (by intro x hx; rw [List.mem_singleton.mp hx]; exact hcne)
      refine ⟨cur :: gs, ?_, ?_⟩
      · rw [h1]
        simp [binsFiles, List.append_assoc]
      · simp [h2]
    · rw [if_neg h]
      obtain ⟨gs, h1, h2⟩ := ih hrest binIdx (cur ++ [c]) acc
        (by
          intro x hx
          rcases List.mem_append.mp hx with h3 | h3
          · exact hcur x h3
          · rw [List.mem_singleton.mp h3]; exact hcne)
      refine ⟨gs, h1, ?_⟩
      rw [h2]
      simp

theorem flatten_split_of_mem {α : Type} (g : List (List α)) (c : List α)
    (h : c ∈ g) : ∃ u v, g.flatten = u ++ c ++ v := by
  induction g with
  | nil => simp at h
  | cons a g ih =>
    rcases List.mem_cons.mp h with h1 | h1
    · exact ⟨[], g.flatten, by simp [h1]⟩
    · obtain ⟨u, v, huv⟩ := ih h1
      exact ⟨a ++ u, v, by simp [huv, List.append_assoc]⟩

/-- Lines 1409-1423: per-file copy/skip accounting.  A file whose destination
path (a function of the bin index and the filename, line 1412) already exists
is counted as skipped (line 1416), otherwise copied (line 1419);
`current_folder_count` is incremented in both cases (line 1420), so
pre-existing destination files do not affect bin sizing. -/
def copySkipCounts (dstExists : Nat → FName → Bool) (bs : List Bin) : Nat × Nat :=
  bs.foldl (fun cs b =>
    b.files.foldl (fun cs f =>
      if dstExists b.index f then (cs.1, cs.2 + 1) else (cs.1 + 1, cs.2)) cs) (0, 0)

theorem copySkip_inner (g : FName → Bool) (l : List FName) :
    ∀ cs : Nat × Nat,
      (l.foldl (fun cs f =>
        if g f then (cs.1, cs.2 + 1) else (cs.1 + 1, cs.2)) cs).1 +
      (l.foldl (fun cs f =>
        if g f then (cs.1, cs.2 + 1) else (cs.1 + 1, cs.2)) cs).2 =
      cs.1 + cs.2 + l.length := by
  induction l with
  | nil => intro cs; simp
  | cons f l ih =>
    intro cs
    simp only [List.foldl_cons, List.length_cons]
    by_cases h : g f
    · rw [if_pos h, ih]
      simp
      omega
    · rw [if_neg h, ih]
      simp
      omega

theorem copySkipCounts_total (dstExists : Nat → FName → Bool) (bs : List Bin) :
    (copySkipCounts dstExists bs).1 + (copySkipCounts dstExists bs).2 =
      ((binsFiles bs).flatten).length := by
  unfold copySkipCounts
  suffices h : ∀ cs : Nat × Nat,
      (bs.foldl (fun cs b =>
        b.files.foldl (fun cs f =>
          if dstExists b.index f then (cs.1, cs.2 + 1) else (cs.1 + 1, cs.2)) cs)
        cs).1 +
      (bs.foldl (fun cs b =>
        b.files.foldl (fun cs f =>
          if dstExists b.index f then (cs.1, cs.2 + 1) else (cs.1 + 1, cs.2)) cs)
        cs).2 =
      cs.1 + cs.2 + ((binsFiles bs).flatten).length by
    simpa using h (0, 0)
  induction bs with
  | nil => intro cs; simp [binsFiles]
  | cons b bs ih =>
    intro cs
    simp only [List.foldl_cons]
    rw [ih, copySkip_inner]
    simp [binsFiles]
    omega

/-- Python string `<` : lexicographic comparison of code points. -/
def lexLt (a b : List Char) : Bool :=
  match a, b with
  | [], [] => false
  | [], _ :: _ => true
  | _ :: _, [] => false
  | x :: xs, y :: ys => Nat.blt x.toNat y.toNat || (x == y && lexLt xs ys)

/-- Stable insertion into a sorted list: `x` goes before the first strictly
greater element, i.e. after every element not greater than it. -/
def insertSorted (lt : α → α → Bool) (x : α) : List α → List α
  | [] => [x]
  | y :: ys => if lt x y then x :: y :: ys else y :: insertSorted lt x ys

/-- Stable ascending insertion sort. -/
def isort (lt : α → α → Bool) (l : List α) : List α := l.foldr (insertSorted lt) []

/-- Line 1339: `all_tif_files.sort(key=lambda x: x['filename'])` — Python's
stable ascending sort by filename under code-point lexicographic order. -/
def sortFiles (fs : List FName) : List FName := isort lexLt fs

/-- The claim's notion of base name, written from the spec's words for
comparison with the code's `baseName`: the filename minus its extension and
minus a trailing underscore-digits suffix when one is present. -/
def specBaseName (f : FName) : FName :=
  match rsplit1 '_' (nameWithoutExt f) with
  | some (b, suf) =>
      if (!suf.isEmpty && suf.all (fun c => c.isDigit)) then b else nameWithoutExt f
  | none => nameWithoutExt f

/-- A lexicographically sorted run of twelve files sharing one base name:
a maximal base-name run longer than the 11-file look-ahead limit. -/
def runTwelve : List FName :=
  ["A_01.TIF".toList, "A_02.TIF".toList, "A_03.TIF".toList, "A_04.TIF".toList,
   "A_05.TIF".toList, "A_06.TIF".toList, "A_07.TIF".toList, "A_08.TIF".toList,
   "A_09.TIF".toList, "A_10.TIF".toList, "A_11.TIF".toList, "A_12.TIF".toList]

/-- C2, counterexample to the claim as stated: `runTwelve` is sorted (it is a
fixed point of the packer's sort) and is one maximal base-name run (all twelve
files share the claim's base name "A"), yet `pack` with cap 11 splits it:
the first eleven files land in bin 000 and the twelfth in bin 001, so no
single bin contains the whole run. -/
theorem C2_counterexample :
    sortFiles runTwelve = runTwelve ∧
    runTwelve.all (fun f => specBaseName f == "A".toList) = true ∧
    pack runTwelve 11 = [⟨0, runTwelve.take 11⟩, ⟨1, ["A_12.TIF".toList]⟩] ∧
    ¬ ∃ b ∈ pack runTwelve 11,
        "A_01.TIF".toList ∈ b.files ∧ "A_12.TIF".toList ∈ b.files := by
  decide

/-- C2, amended: the packer never splits a series — a maximal base-name run
as detected by the 11-file look-ahead (`seriesChunks`) — across two bins:
the bins' file lists are exactly the concatenations of a grouping `gs` of the
series decomposition, every series lies whole inside some bin, and (taking
cap smaller than a series length) a series longer than the cap is still
placed whole into a single oversized bin. -/
theorem C2_pack_never_splits_series (fs : List FName) (cap : Nat) :
    ∃ gs : List (List (List FName)),
      gs.flatten = seriesChunks fs ∧
      binsFiles (pack fs cap) = gs.map List.flatten ∧
      ∀ c ∈ seriesChunks fs, ∃ b ∈ pack fs cap, ∃ u v, b.files = u ++ c ++ v := by
  obtain ⟨gs, h1, h2⟩ := packChunks_groups cap (seriesChunks fs)
    (seriesChunks_ne_nil fs) 0 [] [] (by simp)
  rw [← pack_eq_packChunks] at h1
  have h1' : binsFiles (pack fs cap) = gs.map List.flatten := by
    simpa [binsFiles] using h1
  have h2' : gs.flatten = seriesChunks fs := by simpa using h2
  refine ⟨gs, h2', h1', ?_⟩
  intro c hc
  have hcg : c ∈ gs.flatten := by rw [h2']; exact hc
  obtain ⟨g, hg, hcg2⟩ := List.mem_flatten.mp hcg
  have hmem : g.flatten ∈ binsFiles (pack fs cap) := by
    rw [h1']
    exact List.mem_map_of_mem List.flatten hg
  obtain ⟨b, hb, hbf⟩ := List.mem_map.mp hmem
  obtain ⟨u, v, huv⟩ := flatten_split_of_mem g c hcg2
  exact ⟨b, hb, u, v, by rw [hbf, huv]⟩

/-- C4: the bins emitted by `pack` partition the input: the concatenation of
the bins' file lists is the input list, the sum of the bins' file counts is
the input length, and for every destination-existence predicate the copied
and skipped counts (pre-existing destination files are skipped, not
re-copied, but still counted) sum to the input length. -/
theorem C4_pack_partitions (fs : List FName) (cap : Nat) :
    (binsFiles (pack fs cap)).flatten = fs ∧
    ((pack fs cap).map (fun b => b.files.length)).sum = fs.length ∧
    ∀ dstExists : Nat → FName → Bool,
      (copySkipCounts dstExists (pack fs cap)).1 +
        (copySkipCounts dstExists (pack fs cap)).2 = fs.length := by
  have h1 : (binsFiles (pack fs cap)).flatten = fs := by
    rw [pack_eq_packChunks, packChunks_files_flatten]
    simp [binsFiles, seriesChunks_join]
  refine ⟨h1, ?_, ?_⟩
  · have h2 := List.length_flatten (binsFiles (pack fs cap))
    rw [h1] at h2
    rw [h2]
    simp only [binsFiles, List.map_map]
    rfl
  · intro dstExists
    rw [copySkipCounts_total, h1]

/-- C5: whenever the current bin is non-empty and its count plus the length
of the series at the cursor exceeds the cap, the loop emits the current bin,
opens a new bin with the next sequential index and count reset to zero, and
places the whole series into it. -/
theorem C5_rollover (cap fuel : Nat) (fs : List FName) (binIdx : Nat)
    (cur : List FName) (acc : List Bin) (hne : fs ≠ [])
    (hcur : 0 < cur.length) (hover : cap < cur.length + seriesLen fs) :
    packGo cap (fuel + 1) fs binIdx cur acc =
      packGo cap fuel (fs.drop (seriesLen fs)) (binIdx + 1)
        (fs.take (seriesLen fs)) (acc ++ [⟨binIdx, cur⟩]) := by
  cases fs with
  | nil => exact absurd rfl hne
  | cons f rest =>
    rw [packGo]
    rw [if_pos ⟨hcur, hover⟩]

/-- An eleven-file exposure series (the maximum dual-camera series). -/
def seriesEleven : List FName :=
  ["IMG_0001_1.TIF".toList, "IMG_0001_2.TIF".toList, "IMG_0001_3.TIF".toList,
   "IMG_0001_4.TIF".toList, "IMG_0001_5.TIF".toList, "IMG_0001_6.TIF".toList,
   "IMG_0001_7.TIF".toList, "IMG_0001_8.TIF".toList, "IMG_0001_9.TIF".toList,
   "IMG_0001_10.TIF".toList, "IMG_0001_11.TIF".toList]

set_option maxRecDepth 16384 in
/-- C5, witness: a series of exactly 11 files arriving when the bin holds
cap - 5 = 2195 files rolls the bin over and lands whole in the next bin. -/
theorem C5_rollover_witness :
    seriesEleven ≠ [] ∧
    0 < (List.replicate 2195 ("X.TIF".toList) : List FName).length ∧
    2200 < (List.replicate 2195 ("X.TIF".toList) : List FName).length +
      seriesLen seriesEleven ∧
    packGo 2200 12 seriesEleven 0 (List.replicate 2195 ("X.TIF".toList)) [] =
      packGo 2200 11 (seriesEleven.drop (seriesLen seriesEleven)) 1
        (seriesEleven.take (seriesLen seriesEleven))
        ([] ++ [⟨0, List.replicate 2195 ("X.TIF".toList)⟩]) :=
  ⟨by decide, by rw [List.length_replicate]; decide,
    by rw [List.length_replicate]; decide,
    C5_rollover 2200 11 seriesEleven 0 (List.replicate 2195 ("X.TIF".toList)) []
      (by decide) (by rw [List.length_replicate]; decide)
      (by rw [List.length_replicate]; decide)⟩

/-- Lines 824-825 / 941-942: the uppercased extensions present in a folder's
listing, `{f.split('.')[-1].upper() for f in files if '.' in f}`: files
without a dot contribute nothing; the extension is the substring after the
last dot; `Char.toUpper` matches Python `str.upper` on ASCII extensions.
The Python set is modelled by this list's membership. -/
def presentExtensions (files : List FName) : List FName :=
  (files.filter (fun f => f.contains '.')).map
    (fun f =>
      (match rsplit1 '.' f with
       | some (_, suf) => suf
       | none => f).map Char.toUpper)

/-- Lines 825 / 942: `missing = [ext for ext in REQUIRED if ext not in present]`. -/
def missingExtensions (required : List FName) (files : List FName) : List FName :=
  required.filter (fun ext => !(presentExtensions files).contains ext)

/-- Lines 827-833 / 944-950: the folder passes classification when no
required extension is missing. -/
def classifyPassed (required : List FName) (files : List FName) : Bool :=
  (missingExtensions required files).isEmpty

/-- C6: classification passes iff every required extension occurs among the
folder's distinct uppercased extensions (so extra extensions never cause
failure, witnessed by monotonicity under appending more files), and the
reported missing list holds exactly the required extensions absent from the
folder. -/
theorem C6_classification (required files : List FName) :
    (classifyPassed required files = true ↔
      ∀ r ∈ required, r ∈ presentExtensions files) ∧
    (∀ r, r ∈ missingExtensions required files ↔
      r ∈ required ∧ r ∉ presentExtensions files) ∧
    (∀ extra, classifyPassed required files = true →
      classifyPassed required (files ++ extra) = true) := by
  have hmem : ∀ (l : List FName) (r : FName), l.contains r = true ↔ r ∈ l := by
    intro l r
    exact List.elem_iff
  have hmiss : ∀ fls r, r ∈ missingExtensions required fls ↔
      r ∈ required ∧ r ∉ presentExtensions fls := by
    intro fls r
    unfold missingExtensions
    rw [List.mem_filter]
    constructor
    · rintro ⟨h1, h2⟩
      refine ⟨h1, fun hp => ?_⟩
      rw [Bool.not_eq_true'] at h2
      rw [← hmem _ r] at hp
      rw [h2] at hp
      exact Bool.false_ne_true hp
    · rintro ⟨h1, h2⟩
      refine ⟨h1, ?_⟩
      rw [Bool.not_eq_true']
      cases hc : (presentExtensions fls).contains r with
      | false => rfl
      | true => exact absurd ((hmem _ r).mp hc) h2
  have hpass : ∀ fls, classifyPassed required fls = true ↔
      ∀ r ∈ required, r ∈ presentExtensions fls := by
    intro fls
    unfold classifyPassed
    rw [List.isEmpty_iff]
    constructor
    · intro h r hr
      by_contra hnot
      have h2 := (hmiss fls r).mpr ⟨hr, hnot⟩
      rw [h] at h2
      exact (List.not_mem_nil r) h2
    · intro h
      cases hm : missingExtensions required fls with
      | nil => rfl
      | cons r l =>
        exfalso
        have h2 : r ∈ missingExtensions required fls := by
          rw [hm]; exact List.mem_cons_self r l
        have h3 := (hmiss fls r).mp h2
        exact h3.2 (h r h3.1)
  refine ⟨hpass files, hmiss files, ?_⟩
  intro extra hp
  have hsub : ∀ r, r ∈ presentExtensions files →
      r ∈ presentExtensions (files ++ extra) := by
    intro r hr
    unfold presentExtensions at hr ⊢
    rw [List.filter_append, List.map_append]
    exact List.mem_append_left _ hr
  exact (hpass (files ++ extra)).mpr
    (fun r hr => hsub r ((hpass files).mp hp r hr))

/-- C6, witness: the spec scenario `required = {"JPG","MRK"}`, folder files
`["a.MRK", "b.JPG"]`: classification passes. -/
theorem C6_classification_witness :
    classifyPassed ["JPG".toList, "MRK".toList]
      ["a.MRK".toList, "b.JPG".toList] = true :=
  (C6_classification ["JPG".toList, "MRK".toList]
    ["a.MRK".toList, "b.JPG".toList]).1.mpr (by decide)

/-- The verdict of the corruption scan for one file. -/
inductive Verdict where
  | ok : Verdict
  | corrupt : String → Verdict
deriving DecidableEq, Repr

/-- Python `str(e)[:30]` used in the PIL-failure reason (line 1572). -/
def pyTruncate30 (s : String) : String := (s.toList.take 30).asString

/-- Lines 1516-1574: the layered corruption check for one transferred TIFF.
The file is `none` when `os.path.exists` is false, otherwise `some bytes`
(so `os.path.getsize` is `bytes.length` and `f.read(4)` is `bytes.take 4`).
`pilAvailable` is the `PIL_AVAILABLE` flag and `pil` models
`Image.open(...).verify()`: `none` when the decode succeeds, `some msg` the
exception text.  Checks run in order and stop at the first failure. -/
def scanTiff (file : Option (List Nat)) (pilAvailable : Bool)
    (pil : List Nat → Option String) : Verdict :=
  match file with
  | none => .corrupt "File not found"
  | some bytes =>
    if bytes.length = 0 then .corrupt "Zero size"
    else
      let header := bytes.take 4
      if header.length < 4 then .corrupt "Invalid header (too short)"
      else if ((header.take 2 == [0x49, 0x49] &&
                  (header.drop 2).take 2 == [0x2A, 0x00]) ||
               (header.take 2 == [0x4D, 0x4D] &&
                  (header.drop 2).take 2 == [0x00, 0x2A])) then
        if pilAvailable then
          match pil bytes with
          | some e => .corrupt ("PIL verification failed: " ++ pyTruncate30 e)
          | none => .ok
        else .ok
      else .corrupt "Invalid TIFF header"

/-- C7: the scan applies its checks in order and short-circuits: a missing
file reports "File not found"; an empty file "Zero size"; a non-empty file
shorter than 4 bytes "Invalid header (too short)"; and a file of at least 4
bytes whose first four bytes match neither `49 49 2A 00` nor `4D 4D 00 2A`
reports "Invalid TIFF header", regardless of the deep-decode layer. -/
theorem C7_scan_layers (pilAvailable : Bool) (pil : List Nat → Option String) :
    scanTiff none pilAvailable pil = Verdict.corrupt "File not found" ∧
    scanTiff (some []) pilAvailable pil = Verdict.corrupt "Zero size" ∧
    (∀ bytes : List Nat, bytes ≠ [] → bytes.length < 4 →
      scanTiff (some bytes) pilAvailable pil =
        Verdict.corrupt "Invalid header (too short)") ∧
    (∀ bytes : List Nat, 4 ≤ bytes.length →
      bytes.take 4 ≠ [0x49, 0x49, 0x2A, 0x00] →
      bytes.take 4 ≠ [0x4D, 0x4D, 0x00, 0x2A] →
      scanTiff (some bytes) pilAvailable pil =
        Verdict.corrupt "Invalid TIFF header") := by
  refine ⟨rfl, rfl, ?_, ?_⟩
  · intro bytes hne hlt
    unfold scanTiff
    dsimp only
    rw [if_neg (by simpa using hne)]
    rw [if_pos (by simp [List.length_take]; omega)]
  · intro bytes hge h1 h2
    match bytes, hge with
    | b0 :: b1 :: b2 :: b3 :: rest, _ =>
      have ht : (b0 :: b1 :: b2 :: b3 :: rest).take 4 = [b0, b1, b2, b3] := rfl
      rw [ht] at h1 h2
      unfold scanTiff
      dsimp only
      rw [ht]
      rw [if_neg (by simp)]
      rw [if_neg (by simp)]
      rw [if_neg ?hmagic]
      case hmagic =>
        intro hb
        rcases Bool.or_eq_true_iff.mp hb with hc | hc
        · have hc1 := Bool.and_eq_true_iff.mp hc
          have e1 : [b0, b1] = [0x49, 0x49] := by
            have := hc1.1
            simpa using this
          have e2 : [b2, b3] = [0x2A, 0x00] := by
            have := hc1.2
            simpa using this
          apply h1
          simp only [List.cons.injEq] at e1 e2
          simp [e1.1, e1.2.1, e2.1, e2.2.1]
        · have hc1 := Bool.and_eq_true_iff.mp hc
          have e1 : [b0, b1] = [0x4D, 0x4D] := by
            have := hc1.1
            simpa using this
          have e2 : [b2, b3] = [0x00, 0x2A] := by
            have := hc1.2
            simpa using this
          apply h2
          simp only [List.cons.injEq] at e1 e2
          simp [e1.1, e1.2.1, e2.1, e2.2.1]

/-- C7, witness: the spec scenario — a TIFF whose first four bytes are all
zero is reported corrupt with reason "Invalid TIFF header". -/
theorem C7_scan_layers_witness :
    scanTiff (some [0, 0, 0, 0]) false (fun _ => none) =
      Verdict.corrupt "Invalid TIFF header" :=
  (C7_scan_layers false (fun _ => none)).2.2.2 [0, 0, 0, 0]
    (by decide) (by decide) (by decide)

/-- A directory's relative-path → size map (the dict built by
`get_file_list`, lines 1789-1800); `os.walk` yields each relative path once,
so keys are distinct and the list order models dict insertion order. -/
abbrev FileMap := List (FName × Nat)

/-- The keys of a file map. -/
def mapKeys (m : FileMap) : List FName := m.map Prod.fst

/-- Dictionary access `files[f]` for a key known to be present; absent keys
default to 0 (never exercised: lookups happen only on common keys). -/
def lookupSize (m : FileMap) (p : FName) : Nat :=
  ((m.find? (fun q => q.1 == p)).map Prod.snd).getD 0

/-- Line 1819 / 1823 / 1827: the top-level folder of a relative path:
`os.path.dirname(p).split(os.sep)[0] if os.sep in p else p`, i.e. the first
path segment when the path contains a separator, the path itself otherwise. -/
def topFolder (p : FName) : FName :=
  if p.contains '/' then p.takeWhile (fun c => c != '/') else p

/-- The result of `compare_directories` (lines 1775-1839). -/
structure DiffResult where
  onlyIn1 : List FName
  onlyIn2 : List FName
  sizeDiff : List FName
  affected : List (FName × String)
  identical : Bool
deriving Repr, DecidableEq

/-- Lines 1802-1839: the tree diff over the two path → size maps.  The
Python sets `only_in_1`, `only_in_2`, `common` are modelled as filtered key
lists (same membership); `is_identical = not (only_in_1 or only_in_2 or
size_diff)` is the triple emptiness test. -/
def compareDirs (files1 files2 : FileMap) : DiffResult :=
  let only1 := (mapKeys files1).filter (fun p => !(mapKeys files2).contains p)
  let only2 := (mapKeys files2).filter (fun p => !(mapKeys files1).contains p)
  let common := (mapKeys files1).filter (fun p => (mapKeys files2).contains p)
  let sizeDiff := common.filter (fun p => lookupSize files1 p != lookupSize files2 p)
  { onlyIn1 := only1
    onlyIn2 := only2
    sizeDiff := sizeDiff
    affected :=
      only1.map (fun p => (topFolder p, "Missing in backup")) ++
      only2.map (fun p => (topFolder p, "Extra in backup")) ++
      sizeDiff.map (fun p => (topFolder p, "Size mismatch"))
    identical := only1.isEmpty && only2.isEmpty && sizeDiff.isEmpty }

theorem compareDirs_self (m : FileMap) :
    compareDirs m m =
      { onlyIn1 := [], onlyIn2 := [], sizeDiff := [], affected := [],
        identical := true } := by
  have honly : (mapKeys m).filter (fun p => !(mapKeys m).contains p) = [] := by
    rw [List.filter_eq_nil_iff]
    intro p hp
    simpa using hp
  have hsize : ((mapKeys m).filter (fun p => (mapKeys m).contains p)).filter
      (fun p => lookupSize m p != lookupSize m p) = [] := by
    rw [List.filter_eq_nil_iff]
    intro p _
    simp
  unfold compareDirs
  dsimp only
  rw [honly, hsize]
  simp

theorem compareDirs_identical_iff (m1 m2 : FileMap) :
    (compareDirs m1 m2).identical = true ↔
      (compareDirs m1 m2).onlyIn1 = [] ∧ (compareDirs m1 m2).onlyIn2 = [] ∧
      (compareDirs m1 m2).sizeDiff = [] := by
  unfold compareDirs
  simp only [Bool.and_eq_true, List.isEmpty_iff]
  exact and_assoc

/-- C9: diffing a directory against itself is the identity case: all three
difference sets are empty, no folder is flagged, `identical` is `true`; and
for any two directories `identical` holds exactly when the three difference
sets are all empty. -/
theorem C9_diff_self :
    (∀ m : FileMap,
      (compareDirs m m).identical = true ∧
      (compareDirs m m).onlyIn1 = [] ∧ (compareDirs m m).onlyIn2 = [] ∧
      (compareDirs m m).sizeDiff = [] ∧ (compareDirs m m).affected = []) ∧
    (∀ m1 m2 : FileMap,
      (compareDirs m1 m2).identical = true ↔
        (compareDirs m1 m2).onlyIn1 = [] ∧ (compareDirs m1 m2).onlyIn2 = [] ∧
        (compareDirs m1 m2).sizeDiff = []) := by
  constructor
  · intro m
    rw [compareDirs_self]
    exact ⟨rfl, rfl, rfl, rfl, rfl⟩
  · exact compareDirs_identical_iff

/-- A directory walk before size queries: each entry is a relative path with
`some size`, or `none` when `os.path.getsize` raised OSError. -/
abbrev Walk := List (FName × Option Nat)

/-- Lines 1789-1800: the map construction; an entry whose size query raised
OSError is silently dropped (`except OSError: pass`). -/
def getFileList (w : Walk) : FileMap :=
  w.filterMap (fun e => e.2.map (fun sz => (e.1, sz)))

/-- The whole of `compare_directories` from the raw walks. -/
def compareWalks (w1 w2 : Walk) : DiffResult :=
  compareDirs (getFileList w1) (getFileList w2)

theorem getFileList_append_none (w : Walk) (p : FName) :
    getFileList (w ++ [(p, none)]) = getFileList w := by
  unfold getFileList
  rw [List.filterMap_append]
  simp

/-- C10: a file whose size query raises OSError during the walk is silently
omitted from that tree's map, hence never appears in the size-mismatch set
(nor in only-in-primary); a file unreadable in the first tree but readable in
the second is reported as present only in the second; and appending a file
unreadable in both trees never changes the diff, so two trees whose readable
parts agree and that differ only in a file unreadable in both compare as
identical. -/
theorem C10_oserror_omitted :
    (∀ (w : Walk) (p : FName), (∀ e ∈ w, e.1 = p → e.2 = none) →
      p ∉ mapKeys (getFileList w) ∧
      ∀ w2 : Walk,
        p ∉ (compareWalks w w2).sizeDiff ∧ p ∉ (compareWalks w w2).onlyIn1 ∧
        ((∃ n, (p, some n) ∈ w2) → p ∈ (compareWalks w w2).onlyIn2)) ∧
    (∀ (w1 w2 : Walk) (p : FName),
      compareWalks (w1 ++ [(p, none)]) (w2 ++ [(p, none)]) =
        compareWalks w1 w2) ∧
    (∀ (w1 w2 : Walk) (p : FName), getFileList w1 = getFileList w2 →
      (compareWalks (w1 ++ [(p, none)]) (w2 ++ [(p, none)])).identical = true) := by
  have hkeys : ∀ (w : Walk) (p : FName), (∀ e ∈ w, e.1 = p → e.2 = none) →
      p ∉ mapKeys (getFileList w) := by
    intro w p hw hp
    unfold mapKeys getFileList at hp
    obtain ⟨q, hq, hq1⟩ := List.mem_map.mp hp
    obtain ⟨e, he, he2⟩ := List.mem_filterMap.mp hq
    cases hsz : e.2 with
    | none => rw [hsz] at he2; simp at he2
    | some sz =>
      rw [hsz] at he2
      have hq2 : (e.1, sz) = q := by simpa using he2
      have hep : e.1 = p := by rw [← hq2] at hq1; exact hq1
      have hcontra := hw e he hep
      rw [hsz] at hcontra
      exact Option.noConfusion hcontra
  refine ⟨?_, ?_, ?_⟩
  · intro w p hw
    refine ⟨hkeys w p hw, ?_⟩
    intro w2
    refine ⟨?_, ?_, ?_⟩
    · intro hmem
      unfold compareWalks compareDirs at hmem
      simp only [List.mem_filter] at hmem
      exact hkeys w p hw hmem.1.1
    · intro hmem
      unfold compareWalks compareDirs at hmem
      simp only [List.mem_filter] at hmem
      exact hkeys w p hw hmem.1
    · rintro ⟨n, hn⟩
      unfold compareWalks compareDirs
      rw [List.mem_filter]
      constructor
      · unfold mapKeys getFileList
        apply List.mem_map.mpr
        refine ⟨(p, n), ?_, rfl⟩
        apply List.mem_filterMap.mpr
        exact ⟨(p, some n), hn, rfl⟩
      · cases hc : (mapKeys (getFileList w)).contains p with
        | false => rfl
        | true => exact absurd (List.elem_iff.mp hc) (hkeys w p hw)
  · intro w1 w2 p
    unfold compareWalks
    rw [getFileList_append_none, getFileList_append_none]
  · intro w1 w2 p h
    unfold compareWalks
    rw [getFileList_append_none, getFileList_append_none, h, compareDirs_self]

/-- C10, witness: with a walk holding one unreadable file `s/f.jpg` in the
primary and the same file readable in the backup, the file is reported only
in the backup; and two walks differing only in that unreadable file compare
as identical. -/
theorem C10_oserror_omitted_witness :
    ("s/f.jpg".toList ∉
      mapKeys (getFileList [("s/f.jpg".toList, none)])) ∧
    ("s/f.jpg".toList ∈
      (compareWalks [("s/f.jpg".toList, none)]
        [("s/f.jpg".toList, some 100)]).onlyIn2) ∧
    (compareWalks ([("a.txt".toList, some 3)] ++ [("s/f.jpg".toList, none)])
        ([("a.txt".toList, some 3)] ++ [("s/f.jpg".toList, none)])).identical
      = true :=
  ⟨(C10_oserror_omitted.1 [("s/f.jpg".toList, none)] "s/f.jpg".toList
      (by decide)).1,
   ((C10_oserror_omitted.1 [("s/f.jpg".toList, none)] "s/f.jpg".toList
      (by decide)).2 [("s/f.jpg".toList, some 100)]).2.2 ⟨100, by decide⟩,
   C10_oserror_omitted.2.2 [("a.txt".toList, some 3)] [("a.txt".toList, some 3)]
     "s/f.jpg".toList rfl⟩

/-- Line 1335: `sorted(files_by_plot.keys())`.  `files_by_plot` is modelled
as an association list with distinct keys (Python dict). -/
def sortedPlotIds (fbp : List (FName × List FName)) : List FName :=
  isort lexLt (fbp.map Prod.fst)

/-- Dictionary access `files_by_plot[plot_id]` (line 1336). -/
def lookupPlot (fbp : List (FName × List FName)) (k : FName) : List FName :=
  ((fbp.find? (fun p => p.1 == k)).map Prod.snd).getD []

/-- Lines 1330-1447 as written: the `for plot_id in sorted(...)` loop of line
1335 contains only the banner prints of lines 1336-1345 (plus the in-place
sort of line 1339); the packing-and-copy block of lines 1347-1446 is
indented at function level, so it runs exactly once after the loop, with
`plot_id` and `all_tif_files` holding the values of the LAST iteration — the
last sorted plot id and its filename-sorted file list — and `all_summaries`
receives that single entry. -/
def processPlotsCode (fbp : List (FName × List FName)) (cap : Nat) :
    List (FName × List Bin) :=
  match (sortedPlotIds fbp).getLast? with
  | none => []
  | some pid => [(pid, pack (sortFiles (lookupPlot fbp pid)) cap)]

/-- The per-plot stage as the spec describes it, for comparison with
`processPlotsCode`: the packing-and-copy stage runs once per assigned plot,
over that plot's sorted files, each plot with its own bin index sequence
restarting at 0. -/
def processPlotsPerPlotSpec (fbp : List (FName × List FName)) (cap : Nat) :
    List (FName × List Bin) :=
  (sortedPlotIds fbp).map
    (fun pid => (pid, pack (sortFiles (lookupPlot fbp pid)) cap))

/-- C1: evaluation at a two-plot assignment.  The code as written packs and
copies only the last sorted plot (NTAFIN0002); plot NTAFIN0001's files are
never copied, contradicting the claim that the stage runs once per plot and
every assigned plot's files are copied.  The spec-described behaviour
produces both plots, each with its own bin sequence starting at 0. -/
theorem C1_last_plot_only :
    processPlotsCode
        [("NTAFIN0001".toList, ["IMG_0001_1.TIF".toList]),
         ("NTAFIN0002".toList, ["IMG_0002_1.TIF".toList])] 2200 =
      [("NTAFIN0002".toList, [⟨0, ["IMG_0002_1.TIF".toList]⟩])] ∧
    processPlotsPerPlotSpec
        [("NTAFIN0001".toList, ["IMG_0001_1.TIF".toList]),
         ("NTAFIN0002".toList, ["IMG_0002_1.TIF".toList])] 2200 =
      [("NTAFIN0001".toList, [⟨0, ["IMG_0001_1.TIF".toList]⟩]),
       ("NTAFIN0002".toList, [⟨0, ["IMG_0002_1.TIF".toList]⟩])] ∧
    ∀ pr ∈ processPlotsCode
        [("NTAFIN0001".toList, ["IMG_0001_1.TIF".toList]),
         ("NTAFIN0002".toList, ["IMG_0002_1.TIF".toList])] 2200,
      ∀ b ∈ pr.2, "IMG_0001_1.TIF".toList ∉ b.files := by
  refine ⟨by decide, by decide, by decide⟩

/-- Python `str(n)` for a natural number. -/
def natToChars (n : Nat) : List Char := Nat.toDigits 10 n

/-- Python `str(n).zfill(3)` (lines 1396, 1403): left-pad with zeros to
width 3. -/
def zfill3 (n : Nat) : List Char :=
  let s := natToChars n
  if s.length < 3 then List.replicate (3 - s.length) '0' ++ s else s

/-- Lines 1404-1412: the destination path of one packed file, relative to
the base target directory:
`<plot>/<date>/imagery/multispec/level0_raw/<bin index zfill3>/<filename>`. -/
def msDest (plot date : FName) (binIdx : Nat) (f : FName) : FName :=
  plot ++ ('/' :: date) ++ ('/' :: "imagery".toList) ++
    ('/' :: "multispec".toList) ++ ('/' :: "level0_raw".toList) ++
    ('/' :: zfill3 binIdx) ++ ('/' :: f)

/-- All destination paths of a packed run, in copy order. -/
def micasenseDests (plot date : FName) (bins : List Bin) : List FName :=
  (bins.map (fun b => b.files.map (fun f => msDest plot date b.index f))).flatten

/-- Lines 1414-1420 (and the folder-level twin at lines 845-853): the
skip-if-exists copy.  `st.1` is the set of existing destination paths,
`st.2.1` the copied count, `st.2.2` the skipped count; an item already at
the destination is skipped, otherwise it is copied (added to the
destination). -/
def runCopyAux (st : List FName × Nat × Nat) (items : List FName) :
    List FName × Nat × Nat :=
  items.foldl
    (fun st it =>
      if st.1.contains it then (st.1, st.2.1, st.2.2 + 1)
      else (st.1 ++ [it], st.2.1 + 1, st.2.2)) st

/-- One copy pass over `items` against destination contents `dst`. -/
def runCopy (dst : List FName) (items : List FName) : List FName × Nat × Nat :=
  runCopyAux (dst, 0, 0) items

theorem runCopyAux_mem_of_mem_dst (items : List FName) :
    ∀ (st : List FName × Nat × Nat) (x : FName), x ∈ st.1 →
      x ∈ (runCopyAux st items).1 := by
  induction items with
  | nil => intro st x hx; exact hx
  | cons it items ih =>
    intro st x hx
    unfold runCopyAux
    rw [List.foldl_cons]
    by_cases h : st.1.contains it
    · rw [if_pos h]
      exact ih _ x hx
    · rw [if_neg h]
      exact ih _ x (List.mem_append_left _ hx)

theorem runCopyAux_mem_of_mem_items (items : List FName) :
    ∀ (st : List FName × Nat × Nat) (x : FName), x ∈ items →
      x ∈ (runCopyAux st items).1 := by
  induction items with
  | nil => intro st x hx; exact absurd hx (List.not_mem_nil x)
  | cons it items ih =>
    intro st x hx
    unfold runCopyAux
    rw [List.foldl_cons]
    rcases List.mem_cons.mp hx with h1 | h1
    · subst h1
      by_cases h : st.1.contains x
      · rw [if_pos h]
        exact runCopyAux_mem_of_mem_dst items _ x (List.elem_iff.mp h)
      · rw [if_neg h]
        exact runCopyAux_mem_of_mem_dst items _ x
          (List.mem_append_right _ (List.mem_singleton.mpr rfl))
    · by_cases h : st.1.contains it
      · rw [if_pos h]; exact ih _ x h1
      · rw [if_neg h]; exact ih _ x h1

theorem runCopyAux_all_present (items : List FName) :
    ∀ st : List FName × Nat × Nat, (∀ it ∈ items, it ∈ st.1) →
      runCopyAux st items = (st.1, st.2.1, st.2.2 + items.length) := by
  induction items with
  | nil => intro st _; simp [runCopyAux]
  | cons it items ih =>
    intro st hst
    unfold runCopyAux
    rw [List.foldl_cons]
    have hc : st.1.contains it = true :=
      List.elem_iff.mpr (hst it (List.mem_cons_self it items))
    rw [if_pos hc]
    have := ih (st.1, st.2.1, st.2.2 + 1)
      (fun x hx => hst x (List.mem_cons_of_mem it hx))
    unfold runCopyAux at this
    rw [this]
    simp
    omega

theorem runCopyAux_counts (items : List FName) :
    ∀ st : List FName × Nat × Nat,
      (runCopyAux st items).2.1 + (runCopyAux st items).2.2 =
        st.2.1 + st.2.2 + items.length := by
  induction items with
  | nil => intro st; simp [runCopyAux]
  | cons it items ih =>
    intro st
    unfold runCopyAux
    rw [List.foldl_cons]
    by_cases h : st.1.contains it
    · rw [if_pos h]
      have := ih (st.1, st.2.1, st.2.2 + 1)
      unfold runCopyAux at this
      rw [this]
      simp
      omega
    · rw [if_neg h]
      have := ih (st.1 ++ [it], st.2.1 + 1, st.2.2)
      unfold runCopyAux at this
      rw [this]
      simp
      omega

theorem runCopyAux_nodup (items : List FName) :
    ∀ st : List FName × Nat × Nat, st.1.Nodup → (runCopyAux st items).1.Nodup := by
  induction items with
  | nil => intro st h; exact h
  | cons it items ih =>
    intro st h
    unfold runCopyAux
    rw [List.foldl_cons]
    by_cases hc : st.1.contains it
    · rw [if_pos hc]; exact ih _ h
    · rw [if_neg hc]
      apply ih
      show (st.1 ++ [it]).Nodup
      rw [List.nodup_append]
      refine ⟨h, List.nodup_singleton it, ?_⟩
      intro x hx hx2
      rw [List.mem_singleton.mp hx2] at hx
      exact hc (List.elem_iff.mpr hx)

/-- C8: a second pass of the skip-if-exists copy over the same items is
idempotent: the destination contents are unchanged, nothing is copied again,
every item is counted as skipped (so the skipped count never decreases
between runs), a duplicate-free destination stays duplicate-free (no file is
duplicated), and in particular the micasense destination paths of a packed
run behave this way. -/
theorem C8_second_run_idempotent (dst : List FName) (items : List FName) :
    (runCopy (runCopy dst items).1 items).1 = (runCopy dst items).1 ∧
    (runCopy (runCopy dst items).1 items).2.1 = 0 ∧
    (runCopy (runCopy dst items).1 items).2.2 = items.length ∧
    (runCopy dst items).2.2 ≤ (runCopy (runCopy dst items).1 items).2.2 ∧
    (dst.Nodup → (runCopy (runCopy dst items).1 items).1.Nodup) ∧
    ∀ (plot date : FName) (fs : List FName) (cap : Nat),
      (runCopy (runCopy dst (micasenseDests plot date (pack fs cap))).1
          (micasenseDests plot date (pack fs cap))).1 =
        (runCopy dst (micasenseDests plot date (pack fs cap))).1 := by
  have hall : ∀ (d : List FName) (its : List FName),
      runCopy (runCopy d its).1 its =
        ((runCopy d its).1, 0, its.length) := by
    intro d its
    unfold runCopy
    have h2 := runCopyAux_all_present its ((runCopyAux (d, 0, 0) its).1, 0, 0)
      (fun it hit => runCopyAux_mem_of_mem_items its (d, 0, 0) it hit)
    rw [h2]
    simp
  refine ⟨?_, ?_, ?_, ?_, ?_, ?_⟩
  · rw [hall]
  · rw [hall]
  · rw [hall]
  · rw [hall]
    have h1 := runCopyAux_counts items (dst, 0, 0)
    have e1 : ((dst, 0, 0) : List FName × Nat × Nat).2.1 = 0 := rfl
    have e2 : ((dst, 0, 0) : List FName × Nat × Nat).2.2 = 0 := rfl
    rw [e1, e2] at h1
    show (runCopy dst items).2.2 ≤ items.length
    unfold runCopy
    omega
  · intro hnd
    rw [hall]
    exact runCopyAux_nodup items (dst, 0, 0) hnd
  · intro plot date fs cap
    rw [hall]

/-- C8, witness: two destination paths, second run changes nothing and skips
both. -/
theorem C8_second_run_idempotent_witness :
    ([] : List FName).Nodup ∧
    (runCopy (runCopy [] ["a".toList, "b".toList]).1
      ["a".toList, "b".toList]).1.Nodup :=
  ⟨List.nodup_nil,
    (C8_second_run_idempotent [] ["a".toList, "b".toList]).2.2.2.2.1
      List.nodup_nil⟩

theorem charEq_of_not_blt {x y : Char} (h1 : Nat.blt x.toNat y.toNat = false)
    (h2 : Nat.blt y.toNat x.toNat = false) : x = y := by
  apply Char.ext
  apply UInt32.eq_of_toBitVec_eq
  apply BitVec.eq_of_toNat_eq
  show x.toNat = y.toNat
  have a1 : ¬ x.toNat < y.toNat := by
    intro h
    rw [← Nat.blt_eq] at h
    rw [h1] at h
    exact Bool.false_ne_true h
  have a2 : ¬ y.toNat < x.toNat := by
    intro h
    rw [← Nat.blt_eq] at h
    rw [h2] at h
    exact Bool.false_ne_true h
  omega

theorem blt_self_eq_false (x : Char) : Nat.blt x.toNat x.toNat = false := by
  cases h : Nat.blt x.toNat x.toNat with
  | false => rfl
  | true =>
    rw [Nat.blt_eq] at h
    exact absurd h (Nat.lt_irrefl _)

theorem lexLt_irrefl (a : List Char) : lexLt a a = false := by
  induction a with
  | nil => rfl
  | cons x xs ih =>
    rw [lexLt, blt_self_eq_false, ih]
    simp

theorem lexLt_trans : ∀ {a b c : List Char}, lexLt a b = true →
    lexLt b c = true → lexLt a c = true := by
  intro a
  induction a with
  | nil =>
    intro b c h1 h2
    cases b with
    | nil => rw [lexLt] at h1; exact absurd h1 Bool.false_ne_true
    | cons y ys =>
      cases c with
      | nil => rw [lexLt] at h2; exact absurd h2 Bool.false_ne_true
      | cons z zs => rfl
  | cons x xs ih =>
    intro b c h1 h2
    cases b with
    | nil => rw [lexLt] at h1; exact absurd h1 Bool.false_ne_true
    | cons y ys =>
      cases c with
      | nil => rw [lexLt] at h2; exact absurd h2 Bool.false_ne_true
      | cons z zs =>
        rw [lexLt] at h1 h2 ⊢
        rcases Bool.or_eq_true_iff.mp h1 with hxy | hxy
        · rcases Bool.or_eq_true_iff.mp h2 with hyz | hyz
          · apply Bool.or_eq_true_iff.mpr
            left
            rw [Nat.blt_eq] at hxy hyz ⊢
            exact Nat.lt_trans hxy hyz
          · have hyz1 := (Bool.and_eq_true_iff.mp hyz).1
            have hyz2 : y = z := by simpa using hyz1
            subst hyz2
            apply Bool.or_eq_true_iff.mpr
            left
            exact hxy
        · have hxy1 : x = y := by simpa using (Bool.and_eq_true_iff.mp hxy).1
          have hxy2 := (Bool.and_eq_true_iff.mp hxy).2
          subst hxy1
          rcases Bool.or_eq_true_iff.mp h2 with hyz | hyz
          · apply Bool.or_eq_true_iff.mpr; left; exact hyz
          · have hyz1 : x = z := by simpa using (Bool.and_eq_true_iff.mp hyz).1
            have hyz2 := (Bool.and_eq_true_iff.mp hyz).2
            subst hyz1
            apply Bool.or_eq_true_iff.mpr
            right
            simp [ih hxy2 hyz2]

theorem lexLt_eq_of_not : ∀ {a b : List Char}, lexLt a b = false →
    lexLt b a = false → a = b := by
  intro a
  induction a with
  | nil =>
    intro b h1 _
    cases b with
    | nil => rfl
    | cons y ys => rw [lexLt] at h1; exact absurd h1.symm Bool.false_ne_true
  | cons x xs ih =>
    intro b h1 h2
    cases b with
    | nil => rw [lexLt] at h2; exact absurd h2.symm Bool.false_ne_true
    | cons y ys =>
      rw [lexLt] at h1 h2
      rw [Bool.or_eq_false_iff] at h1 h2
      have hxy : x = y := charEq_of_not_blt h1.1 h2.1
      subst hxy
      have h1' : lexLt xs ys = false := by
        have := h1.2
        simpa using this
      have h2' : lexLt ys xs = false := by
        have := h2.2
        simpa using this
      rw [ih h1' h2']

theorem lexLt_asymm {a b : List Char} (h : lexLt a b = true) :
    lexLt b a = false := by
  cases hb : lexLt b a with
  | false => rfl
  | true =>
    have := lexLt_trans h hb
    rw [lexLt_irrefl] at this
    exact absurd this Bool.false_ne_true

theorem mem_insertSorted {α : Type} (lt : α → α → Bool) (x : α) :
    ∀ (l : List α) (z : α), z ∈ insertSorted lt x l ↔ z = x ∨ z ∈ l := by
  intro l
  induction l with
  | nil => intro z; simp [insertSorted]
  | cons y ys ih =>
    intro z
    unfold insertSorted
    by_cases h : lt x y
    · rw [if_pos h]
      simp only [List.mem_cons]
    · rw [if_neg h]
      simp only [List.mem_cons, ih]
      tauto

theorem perm_insertSorted {α : Type} (lt : α → α → Bool) (x : α) :
    ∀ l : List α, List.Perm (insertSorted lt x l) (x :: l) := by
  intro l
  induction l with
  | nil => simp [insertSorted]
  | cons y ys ih =>
    unfold insertSorted
    by_cases h : lt x y
    · rw [if_pos h]
    · rw [if_neg h]
      exact List.Perm.trans (List.Perm.cons y ih) (List.Perm.swap x y ys)

theorem isort_perm {α : Type} (lt : α → α → Bool) :
    ∀ l : List α, List.Perm (isort lt l) l := by
  intro l
  induction l with
  | nil => simp [isort]
  | cons a l ih =>
    show List.Perm (insertSorted lt a (isort lt l)) (a :: l)
    exact List.Perm.trans (perm_insertSorted lt a (isort lt l))
      (List.Perm.cons a ih)

theorem insertSorted_pairwise {α : Type} (lt : α → α → Bool)
    (hasymm : ∀ {a b : α}, lt a b = true → lt b a = false)
    (htrans : ∀ {a b c : α}, lt a b = true → lt b c = true → lt a c = true)
    (x : α) :
    ∀ l : List α, List.Pairwise (fun a b => lt b a = false) l →
      List.Pairwise (fun a b => lt b a = false) (insertSorted lt x l) := by
  intro l
  induction l with
  | nil => intro _; simp [insertSorted]
  | cons y ys ih =>
    intro hl
    rw [List.pairwise_cons] at hl
    obtain ⟨hy, hys⟩ := hl
    unfold insertSorted
    by_cases h : lt x y
    · rw [if_pos h]
      rw [List.pairwise_cons]
      refine ⟨?_, List.pairwise_cons.mpr ⟨hy, hys⟩⟩
      intro z hz
      rcases List.mem_cons.mp hz with h1 | h1
      · subst h1; exact hasymm h
      · cases hzx : lt z x with
        | false => rfl
        | true =>
          have : lt z y = true := htrans hzx h
          rw [hy z h1] at this
          exact absurd this Bool.false_ne_true
    · rw [if_neg h]
      rw [List.pairwise_cons]
      refine ⟨?_, ih hys⟩
      intro z hz
      rcases (mem_insertSorted lt x ys z).mp hz with h1 | h1
      · rw [h1]
        cases hxy : lt x y with
        | false => rfl
        | true => exact absurd hxy h
      · exact hy z h1

theorem isort_pairwise {α : Type} (lt : α → α → Bool)
    (hasymm : ∀ {a b : α}, lt a b = true → lt b a = false)
    (htrans : ∀ {a b c : α}, lt a b = true → lt b c = true → lt a c = true)
    (l : List α) :
    List.Pairwise (fun a b => lt b a = false) (isort lt l) := by
  induction l with
  | nil => simp [isort]
  | cons a l ih =>
    exact insertSorted_pairwise lt hasymm htrans a (isort lt l) ih

theorem insertSorted_map {α β : Type} (f : α → β) (lt : β → β → Bool) (x : α) :
    ∀ l : List α,
      insertSorted lt (f x) (l.map f) =
        (insertSorted (fun a b => lt (f a) (f b)) x l).map f := by
  intro l
  induction l with
  | nil => rfl
  | cons y ys ih =>
    show insertSorted lt (f x) (f y :: ys.map f) = _
    unfold insertSorted
    by_cases h : lt (f x) (f y)
    · rw [if_pos h, if_pos h]
      rfl
    · rw [if_neg h, if_neg h]
      rw [List.map_cons, ih]

theorem isort_map {α β : Type} (f : α → β) (lt : β → β → Bool) :
    ∀ l : List α,
      isort lt (l.map f) = (isort (fun a b => lt (f a) (f b)) l).map f := by
  intro l
  induction l with
  | nil => rfl
  | cons a l ih =>
    show insertSorted lt (f a) (isort lt (l.map f)) = _
    rw [ih]
    rw [insertSorted_map f lt a]
    rfl

theorem isDigit_toNat_bounds {c : Char} (h : c.isDigit = true) :
    48 ≤ c.toNat ∧ c.toNat ≤ 57 := by
  unfold Char.isDigit at h
  rw [Bool.and_eq_true] at h
  obtain ⟨h1, h2⟩ := h
  rw [decide_eq_true_iff] at h1 h2
  have h1b : (48 : UInt32) ≤ c.val := h1
  rw [UInt32.le_def, BitVec.le_def] at h1b h2
  exact ⟨by simpa using h1b, by simpa using h2⟩

theorem digitsToNat_foldl (s : List Char) : ∀ a : Nat,
    s.foldl (fun a c => 10 * a + (c.toNat - 48)) a =
      a * 10 ^ s.length + digitsToNat s := by
  induction s with
  | nil => intro a; simp [digitsToNat]
  | cons c cs ih =>
    intro a
    rw [List.foldl_cons]
    rw [ih]
    have h2 : digitsToNat (c :: cs) =
        (10 * 0 + (c.toNat - 48)) * 10 ^ cs.length + digitsToNat cs := by
      unfold digitsToNat
      rw [List.foldl_cons]
      exact ih (10 * 0 + (c.toNat - 48))
    rw [h2]
    simp [List.length_cons, pow_succ]
    ring

theorem digitsToNat_cons (c : Char) (cs : List Char) :
    digitsToNat (c :: cs) =
      (c.toNat - 48) * 10 ^ cs.length + digitsToNat cs := by
  unfold digitsToNat
  rw [List.foldl_cons]
  have := digitsToNat_foldl cs (10 * 0 + (c.toNat - 48))
  simpa [digitsToNat] using this

theorem digitsToNat_lt_pow (s : List Char) (h : ∀ c ∈ s, c.isDigit = true) :
    digitsToNat s < 10 ^ s.length := by
  induction s with
  | nil => simp [digitsToNat]
  | cons c cs ih =>
    rw [digitsToNat_cons]
    have hv := ih (fun x hx => h x (List.mem_cons_of_mem c hx))
    have hb := isDigit_toNat_bounds (h c (List.mem_cons_self c cs))
    have hd : c.toNat - 48 ≤ 9 := by omega
    have hstep : (c.toNat - 48) * 10 ^ cs.length + digitsToNat cs <
        (c.toNat - 48 + 1) * 10 ^ cs.length := by
      have hexp : (c.toNat - 48 + 1) * 10 ^ cs.length =
          (c.toNat - 48) * 10 ^ cs.length + 10 ^ cs.length := by ring
      omega
    have hfin : (c.toNat - 48 + 1) * 10 ^ cs.length ≤ 10 * 10 ^ cs.length :=
      Nat.mul_le_mul_right _ (by omega)
    have hp : 10 ^ (c :: cs).length = 10 * 10 ^ cs.length := by
      rw [List.length_cons, pow_succ]
      ring
    omega

theorem digitsToNat_lt_of_lexLt :
    ∀ {s1 s2 : List Char}, s1.length = s2.length →
      (∀ c ∈ s1, c.isDigit = true) → (∀ c ∈ s2, c.isDigit = true) →
      lexLt s1 s2 = true → digitsToNat s1 < digitsToNat s2 := by
  intro s1
  induction s1 with
  | nil =>
    intro s2 hlen _ _ hlt
    cases s2 with
    | nil => rw [lexLt] at hlt; exact absurd hlt Bool.false_ne_true
    | cons d ds => simp at hlen
  | cons c cs ih =>
    intro s2 hlen h1 h2 hlt
    cases s2 with
    | nil => simp at hlen
    | cons d ds =>
      have hlen' : cs.length = ds.length := by simpa using hlen
      have hcb := isDigit_toNat_bounds (h1 c (List.mem_cons_self c cs))
      have hdb := isDigit_toNat_bounds (h2 d (List.mem_cons_self d ds))
      rw [digitsToNat_cons, digitsToNat_cons, ← hlen']
      rw [lexLt] at hlt
      rcases Bool.or_eq_true_iff.mp hlt with hcd | hcd
      · rw [Nat.blt_eq] at hcd
        have hdd : c.toNat - 48 + 1 ≤ d.toNat - 48 := by omega
        have hv1 := digitsToNat_lt_pow cs
          (fun x hx => h1 x (List.mem_cons_of_mem c hx))
        have hstep : (c.toNat - 48) * 10 ^ cs.length + digitsToNat cs <
            (c.toNat - 48 + 1) * 10 ^ cs.length := by
          have hexp : (c.toNat - 48 + 1) * 10 ^ cs.length =
              (c.toNat - 48) * 10 ^ cs.length + 10 ^ cs.length := by ring
          omega
        have hmul : (c.toNat - 48 + 1) * 10 ^ cs.length ≤
            (d.toNat - 48) * 10 ^ cs.length :=
          Nat.mul_le_mul_right _ hdd
        omega
      · have hc1 : c = d := by simpa using (Bool.and_eq_true_iff.mp hcd).1
        have hc2 := (Bool.and_eq_true_iff.mp hcd).2
        subst hc1
        have := ih hlen' (fun x hx => h1 x (List.mem_cons_of_mem c hx))
          (fun x hx => h2 x (List.mem_cons_of_mem c hx)) hc2
        omega

theorem lexLt_digits_iff {s1 s2 : List Char} (hlen : s1.length = s2.length)
    (h1 : ∀ c ∈ s1, c.isDigit = true) (h2 : ∀ c ∈ s2, c.isDigit = true) :
    lexLt s1 s2 = true ↔ digitsToNat s1 < digitsToNat s2 := by
  constructor
  · exact digitsToNat_lt_of_lexLt hlen h1 h2
  · intro hv
    cases hls : lexLt s1 s2 with
    | true => rfl
    | false =>
      exfalso
      cases hls2 : lexLt s2 s1 with
      | true =>
        have := digitsToNat_lt_of_lexLt hlen.symm h2 h1 hls2
        omega
      | false =>
        have := lexLt_eq_of_not hls hls2
        rw [this] at hv
        omega

theorem lexLt_append_eqlen :
    ∀ (a b : List Char), a.length = b.length → ∀ (t u : List Char),
      lexLt (a ++ t) (b ++ u) =
        if a = b then lexLt t u else lexLt a b := by
  intro a
  induction a with
  | nil =>
    intro b hlen t u
    cases b with
    | nil => simp
    | cons y ys => simp at hlen
  | cons x xs ih =>
    intro b hlen t u
    cases b with
    | nil => simp at hlen
    | cons y ys =>
      have hlen' : xs.length = ys.length := by simpa using hlen
      show lexLt (x :: (xs ++ t)) (y :: (ys ++ u)) = _
      rw [lexLt]
      by_cases hxy : x = y
      · subst hxy
        rw [blt_self_eq_false]
        simp only [Bool.false_or, beq_self_eq_true, Bool.true_and]
        rw [ih ys hlen' t u]
        by_cases hxs : xs = ys
        · subst hxs
          rw [if_pos rfl, if_pos rfl]
        · rw [if_neg hxs, if_neg (by simp [hxs])]
          rw [lexLt, blt_self_eq_false]
          simp
      · have hbeq : (x == y) = false := by
          rw [beq_eq_false_iff_ne]
          exact hxy
        rw [hbeq]
        simp only [Bool.false_and, Bool.or_false]
        rw [if_neg (by simp [hxy])]
        rw [lexLt, hbeq]
        simp

/-- A filename following the naming convention `<base>_<n>.<ext>`, rendered
from a record `(base, suffix string)` and a common extension. -/
def renderName (e : List Char) (r : List Char × List Char) : FName :=
  r.1 ++ '_' :: (r.2 ++ '.' :: e)

/-- Filename comparison characterization under the convention: with equal
base lengths, equal digit-suffix widths and a common extension, Python's
lexicographic filename order compares same-base files by numeric suffix and
distinct-base files by base-name order. -/
theorem lexLt_renderName (e : List Char) (r1 r2 : List Char × List Char)
    (hb : r1.1.length = r2.1.length) (hs : r1.2.length = r2.2.length)
    (h1 : ∀ c ∈ r1.2, c.isDigit = true) (h2 : ∀ c ∈ r2.2, c.isDigit = true) :
    lexLt (renderName e r1) (renderName e r2) =
      if r1.1 = r2.1 then decide (digitsToNat r1.2 < digitsToNat r2.2)
      else lexLt r1.1 r2.1 := by
  unfold renderName
  rw [lexLt_append_eqlen r1.1 r2.1 hb]
  by_cases hbb : r1.1 = r2.1
  · rw [if_pos hbb, if_pos hbb]
    rw [lexLt, blt_self_eq_false]
    simp only [Bool.false_or, beq_self_eq_true, Bool.true_and]
    rw [lexLt_append_eqlen r1.2 r2.2 hs]
    by_cases hss : r1.2 = r2.2
    · rw [if_pos hss, hss, lexLt_irrefl]
      simp
    · rw [if_neg hss]
      rw [Bool.eq_iff_iff]
      rw [decide_eq_true_iff]
      exact lexLt_digits_iff hs h1 h2
  · rw [if_neg hbb, if_neg hbb]

/-- The packer's sort of line 1339 at record level: sort the `(base,
suffix)` records by the lexicographic order of their rendered filenames. -/
def sortRecs (e : List Char) (rs : List (List Char × List Char)) :
    List (List Char × List Char) :=
  isort (fun r1 r2 => lexLt (renderName e r1) (renderName e r2)) rs

/-- C3 (as stated) fails: the list
`[IMG_0001_1.TIF, IMG_0001_10.TIF, IMG_0001_2.TIF]` is lexicographically
sorted (a fixed point of the packer's sort) and all three files belong to
one series (same base name `IMG_0001`), yet the numeric suffixes appear in
the order 1, 10, 2 — not ascending numeric order. -/
theorem C3_counterexample :
    sortFiles ["IMG_0001_1.TIF".toList, "IMG_0001_10.TIF".toList,
        "IMG_0001_2.TIF".toList] =
      ["IMG_0001_1.TIF".toList, "IMG_0001_10.TIF".toList,
        "IMG_0001_2.TIF".toList] ∧
    ["IMG_0001_1.TIF".toList, "IMG_0001_10.TIF".toList,
        "IMG_0001_2.TIF".toList].map specBaseName =
      ["IMG_0001".toList, "IMG_0001".toList, "IMG_0001".toList] ∧
    ["IMG_0001_1.TIF".toList, "IMG_0001_10.TIF".toList,
        "IMG_0001_2.TIF".toList].map seriesNum =
      [some 1, some 10, some 2] ∧
    ¬ List.Chain' (fun a b : Nat => a ≤ b) [1, 10, 2] := by
  refine ⟨by decide, by decide, by decide, ?_⟩
  intro h
  have h1 := (List.chain'_cons.mp h).2
  have h2 := (List.chain'_cons.mp h1).1
  omega

/-- C3, amended: for filenames `<base>_<n>.<ext>` with a common extension,
equal-length bases and equal-width (zero-padded) digit suffixes, the
packer's lexicographic sort (line 1339) factors through the `(base, n)`
records; filename comparison is exactly base-name order refined by numeric
suffix order; and in the sorted output same-series records are contiguous
(any record lying between two same-base records shares that base) with
ascending numeric suffixes.  (With the cameras' variable-width suffixes
1-11 the numeric ordering clause fails, see the counterexample.) -/
theorem C3_lex_sort_groups_series (e : List Char) (w lB : Nat)
    (rs : List (List Char × List Char))
    (hbase : ∀ r ∈ rs, r.1.length = lB)
    (hsuf : ∀ r ∈ rs, r.2.length = w ∧ ∀ c ∈ r.2, c.isDigit = true) :
    sortFiles (rs.map (renderName e)) = (sortRecs e rs).map (renderName e) ∧
    List.Perm (sortRecs e rs) rs ∧
    (∀ r1 ∈ rs, ∀ r2 ∈ rs,
      lexLt (renderName e r1) (renderName e r2) =
        if r1.1 = r2.1 then decide (digitsToNat r1.2 < digitsToNat r2.2)
        else lexLt r1.1 r2.1) ∧
    (∀ l1 l2 l3 r1 r2, sortRecs e rs = l1 ++ r1 :: (l2 ++ r2 :: l3) →
      r1.1 = r2.1 →
      (∀ r3 ∈ l2, r3.1 = r1.1) ∧ digitsToNat r1.2 ≤ digitsToNat r2.2) := by
  have hchar : ∀ r1 ∈ rs, ∀ r2 ∈ rs,
      lexLt (renderName e r1) (renderName e r2) =
        if r1.1 = r2.1 then decide (digitsToNat r1.2 < digitsToNat r2.2)
        else lexLt r1.1 r2.1 := by
    intro r1 hr1 r2 hr2
    exact lexLt_renderName e r1 r2
      ((hbase r1 hr1).trans (hbase r2 hr2).symm)
      ((hsuf r1 hr1).1.trans ((hsuf r2 hr2).1).symm)
      (hsuf r1 hr1).2 (hsuf r2 hr2).2
  have hperm : List.Perm (sortRecs e rs) rs := isort_perm _ rs
  have hmem : ∀ r ∈ sortRecs e rs, r ∈ rs := fun r hr => hperm.mem_iff.mp hr
  have hsorted : List.Pairwise
      (fun r1 r2 => lexLt (renderName e r2) (renderName e r1) = false)
      (sortRecs e rs) :=
    isort_pairwise (fun r1 r2 => lexLt (renderName e r1) (renderName e r2))
      (fun h => lexLt_asymm h) (fun h1 h2 => lexLt_trans h1 h2) rs
  refine ⟨?_, hperm, hchar, ?_⟩
  · unfold sortFiles sortRecs
    exact isort_map (renderName e) lexLt rs
  · intro l1 l2 l3 r1 r2 hdec hbb
    rw [hdec] at hsorted hmem
    have hp1 := (List.pairwise_append.mp hsorted).2.1
    rw [List.pairwise_cons] at hp1
    obtain ⟨hr1all, hp2⟩ := hp1
    have hp3 := List.pairwise_append.mp hp2
    obtain ⟨_, _, hcross⟩ := hp3
    have hm1 : r1 ∈ rs := hmem r1 (by simp)
    have hm2 : r2 ∈ rs := hmem r2 (by simp)
    constructor
    · intro r3 hr3
      have hm3 : r3 ∈ rs := hmem r3 (by simp [hr3])
      have hle13 : lexLt (renderName e r3) (renderName e r1) = false :=
        hr1all r3 (List.mem_append_left _ hr3)
      have hle32 : lexLt (renderName e r2) (renderName e r3) = false :=
        hcross r3 hr3 r2 (List.mem_cons_self r2 l3)
      rw [hchar r3 hm3 r1 hm1] at hle13
      rw [hchar r2 hm2 r3 hm3] at hle32
      by_contra hne
      rw [if_neg hne] at hle13
      have hne2 : ¬ r2.1 = r3.1 := by
        rw [← hbb]
        intro hx
        exact hne hx.symm
      rw [if_neg hne2] at hle32
      rw [← hbb] at hle32
      exact hne (lexLt_eq_of_not hle13 hle32)
    · have hle12 : lexLt (renderName e r2) (renderName e r1) = false :=
        hr1all r2 (List.mem_append_right _ (List.mem_cons_self r2 l3))
      rw [hchar r2 hm2 r1 hm1] at hle12
      rw [if_pos hbb.symm] at hle12
      have : ¬ digitsToNat r2.2 < digitsToNat r1.2 := by
        intro hx
        rw [decide_eq_true hx] at hle12
        simp at hle12
      omega

/-- Three records of the convention: two of series IMG_0001 (suffixes 02 and
01, out of order) and one of series IMG_0002, all with width-2 suffixes. -/
def recsPadded : List (List Char × List Char) :=
  [("IMG_0001".toList, "02".toList), ("IMG_0001".toList, "01".toList),
   ("IMG_0002".toList, "01".toList)]

/-- C3, witness: the amended theorem instantiated at `recsPadded` with
extension TIF, suffix width 2 and base length 8. -/
theorem C3_lex_sort_groups_series_witness :
    (∀ r ∈ recsPadded, r.1.length = 8) ∧
    (∀ r ∈ recsPadded, r.2.length = 2 ∧ ∀ c ∈ r.2, c.isDigit = true) ∧
    sortFiles (recsPadded.map (renderName "TIF".toList)) =
      (sortRecs "TIF".toList recsPadded).map (renderName "TIF".toList) :=
  ⟨by decide, by decide,
    (C3_lex_sort_groups_series "TIF".toList 2 8 recsPadded
      (by decide) (by decide)).1⟩

end TernUav
